import Mathlib

/-!
Shallow embedding of `src/untitled/JSONValue.cpp` (a small JSON parser,
serializer and tree-utility library).

Modelling conventions:
* C++ `std::string` text (both parser input and string payloads) is a byte
  sequence, modelled as `List Nat` (each element one byte value).
* `std::unordered_map<std::string, JSONValue>` is modelled as an association
  list `List (List Nat × JSONValue)` with insert-overwrite (`jinsert`);
  the map's key-uniqueness invariant becomes a side condition where needed.
* IEEE-754 `double` is modelled as an exact rational (`Dbl`, a normalized
  numerator/denominator pair): every numeric literal appearing in the
  concrete evaluations below (0, 1, 1.5, 2) is exactly representable as a
  double, so exact rational arithmetic agrees with the C++ semantics on
  every computation performed here.
* C++ exceptions become `Except String` with the exact message strings the
  source throws.
* `input[position]` (`peek`) is modelled as `List.getD s pos 0`: C++
  guarantees `std::string::operator[]` yields `'\0'` at `position == size()`,
  and the parser keeps `position ≤ size()` throughout.
* The mutually recursive descent is made total with a fuel parameter;
  `parse` supplies `16 * (length + 2)` fuel, ample for its input since every
  recursive call either consumes a byte or moves to a subterm.
-/

/-- C++ `std::isspace` on the bytes it can see: space, \t, \n, \v, \f, \r. -/
def isWsB (b : Nat) : Bool :=
  b = 32 || b = 9 || b = 10 || b = 11 || b = 12 || b = 13

/-- C++ `std::isdigit`. -/
def isDigitB (b : Nat) : Bool := 48 ≤ b && b ≤ 57

/-- C++ `std::isxdigit`. -/
def isHexB (b : Nat) : Bool :=
  isDigitB b || (97 ≤ b && b ≤ 102) || (65 ≤ b && b ≤ 70)

/-- Value of one hexadecimal digit byte. -/
def hexVal (b : Nat) : Nat :=
  if isDigitB b then b - 48 else if 97 ≤ b then b - 87 else b - 55

/-- ASCII bytes of a Lean string literal (used only for ASCII literals). -/
def litBytes (w : String) : List Nat := w.toList.map Char.toNat

/-- Exact-value stand-in for IEEE-754 `double`: a fraction kept normalized
(`den > 0`, `gcd = 1`) so that structural equality coincides with value
equality, matching `==` on doubles for the exactly representable values
handled here. -/
structure Dbl where
  num : Int
  den : Nat
deriving DecidableEq

/-- Build a `Dbl` in lowest terms. -/
def mkDbl (n : Int) (d : Nat) : Dbl :=
  let g := Nat.gcd n.natAbs d
  ⟨n / (g : Int), d / g⟩

/-- The tagged value model of class `JSONValue` (source lines 18–43):
OBJECT, ARRAY, STRING, NUMBER, BOOLEAN, NULLVALUE.  The all-fields C++
struct is used through its constructors only, so the tagged sum is the
faithful model; object payloads are association lists standing for the
`unordered_map`. -/
inductive JSONValue where
  | obj : List (List Nat × JSONValue) → JSONValue
  | arr : List JSONValue → JSONValue
  | str : List Nat → JSONValue
  | num : Dbl → JSONValue
  | bool : Bool → JSONValue
  | null : JSONValue

/-- `m.count(k) / m.at(k)`: first binding of `k` in the association list. -/
def jlookup : List (List Nat × JSONValue) → List Nat → Option JSONValue
  | [], _ => none
  | (k, v) :: rest, key => if k = key then some v else jlookup rest key

/-- `m[k] = v` on `unordered_map`: overwrite the binding if present,
otherwise add it. -/
def jinsert : List (List Nat × JSONValue) → List Nat → JSONValue →
    List (List Nat × JSONValue)
  | [], key, v => [(key, v)]
  | (k, w) :: rest, key, v =>
      if k = key then (key, v) :: rest else (k, w) :: jinsert rest key v

/-- The loop of `skipWhitespace`, bounded by the remaining length (each
iteration requires `p < s.length`, so `s.length - p` steps always suffice
and the bound never alters the loop's result). -/
def skipWsA : Nat → List Nat → Nat → Nat
  | 0, _, p => p
  | n + 1, s, p =>
      if p < s.length ∧ isWsB (s.getD p 0) then skipWsA n s (p + 1) else p

/-- `skipWhitespace` (source lines 61–65): advance while in bounds and on
whitespace. -/
def skipWs (s : List Nat) (p : Nat) : Nat := skipWsA (s.length - p) s p

/-- `consume` (source lines 54–59): bounds-checked read-and-advance. -/
def consume (s : List Nat) (p : Nat) : Except String (Nat × Nat) :=
  if p < s.length then .ok (s.getD p 0, p + 1)
  else .error ("Unexpected end of input at position " ++ toString p)

/-- `input.compare(position, w.length, w) == 0`: the next `w.length` bytes
exist and equal `w`. -/
def sliceEq (s : List Nat) (p : Nat) (w : List Nat) : Bool :=
  decide ((s.drop p).take w.length = w)

/-- Digit run to a natural number. -/
def digitsToNat (ds : List Nat) : Nat := ds.foldl (fun a d => a * 10 + (d - 48)) 0

/-- Model of `std::stod` on the byte runs `parseNumber` can scan (drawn from
digits, `.`, `-`, `+`; an exponent marker can never occur in the run):
optional sign, then a longest valid decimal prefix; fails iff that prefix
holds no digit, exactly as `stod` throws `std::invalid_argument`. -/
def stodModel (s : List Nat) : Option Dbl :=
  let sign : Int := if s.headD 0 = 45 then -1 else 1
  let rest := if s.headD 0 = 45 || s.headD 0 = 43 then s.tail else s
  let ip := rest.takeWhile isDigitB
  let rest2 := rest.dropWhile isDigitB
  let fp := if rest2.headD 0 = 46 then rest2.tail.takeWhile isDigitB else []
  if ip = [] && fp = [] then none
  else some (mkDbl (sign * (digitsToNat ip * 10 ^ fp.length + digitsToNat fp))
    (10 ^ fp.length))

/-- The scan loop of `parseNumber` (source line 160), bounded by the
remaining length exactly as `skipWsA`: maximal run of digits, `.`, `-`,
`+`.  Note: no `e`/`E` in the character class. -/
def scanNumA : Nat → List Nat → Nat → Nat
  | 0, _, p => p
  | n + 1, s, p =>
      if p < s.length ∧
          (isDigitB (s.getD p 0) || s.getD p 0 = 46 || s.getD p 0 = 45 || s.getD p 0 = 43) then
        scanNumA n s (p + 1)
      else p

/-- The maximal-run scan of `parseNumber` starting at `p`. -/
def scanNum (s : List Nat) (p : Nat) : Nat := scanNumA (s.length - p) s p

/-- `JSONParser::parseNumber` (source lines 158–165). -/
def parseNumber (s : List Nat) (pos : Nat) : Except String (JSONValue × Nat) :=
  let e := scanNum s pos
  match stodModel ((s.drop pos).take (e - pos)) with
  | some q => .ok (.num q, e)
  | none => .error "stod"

/-- `JSONParser::parseLiteral` (source lines 167–173). -/
def parseLiteral (s : List Nat) (pos : Nat) (w : String) (v : JSONValue) :
    Except String (JSONValue × Nat) :=
  if sliceEq s pos (litBytes w) then .ok (v, pos + (litBytes w).length)
  else .error ("Invalid literal: " ++ w)

/-- UTF-8 encoding of a code point (source lines 281–296). -/
def utf8Encode (c : Nat) : List Nat :=
  if c ≤ 0x7F then [c]
  else if c ≤ 0x7FF then
    [0xC0 ||| ((c >>> 6) &&& 0x1F), 0x80 ||| (c &&& 0x3F)]
  else if c ≤ 0xFFFF then
    [0xE0 ||| ((c >>> 12) &&& 0x0F), 0x80 ||| ((c >>> 6) &&& 0x3F),
     0x80 ||| (c &&& 0x3F)]
  else
    [0xF0 ||| ((c >>> 18) &&& 0x07), 0x80 ||| ((c >>> 12) &&& 0x3F),
     0x80 ||| ((c >>> 6) &&& 0x3F), 0x80 ||| (c &&& 0x3F)]

/-- `JSONParser::parseUnicodeEscape` (source lines 270–298): consume exactly
4 hex digits, build the 16-bit code unit, return its UTF-8 bytes. -/
def parseUnicodeEscape (s : List Nat) (p : Nat) : Except String (List Nat × Nat) := do
  let (d1, p1) ← consume s p
  if !isHexB d1 then throw "Invalid Unicode escape sequence" else
  let (d2, p2) ← consume s p1
  if !isHexB d2 then throw "Invalid Unicode escape sequence" else
  let (d3, p3) ← consume s p2
  if !isHexB d3 then throw "Invalid Unicode escape sequence" else
  let (d4, p4) ← consume s p3
  if !isHexB d4 then throw "Invalid Unicode escape sequence" else
  let codePoint := hexVal d1 * 4096 + hexVal d2 * 256 + hexVal d3 * 16 + hexVal d4
  return (utf8Encode codePoint, p4)

mutual

/-- `JSONParser::parseValue` (source lines 92–104): dispatch on the next
byte without consuming it.  No depth counter exists; the fuel is a totality
artifact of the embedding, not a bound in the source. -/
def parseValue : Nat → List Nat → Nat → Except String (JSONValue × Nat)
  | 0, _, _ => .error "fuel exhausted"
  | fuel + 1, s, pos =>
    let p := skipWs s pos
    let current := s.getD p 0
    if current = 123 then parseObject fuel s p
    else if current = 91 then parseArray fuel s p
    else if current = 34 then parseString fuel s p
    else if isDigitB current || current = 45 then parseNumber s p
    else if sliceEq s p (litBytes "true") then parseLiteral s p "true" (.bool true)
    else if sliceEq s p (litBytes "false") then parseLiteral s p "false" (.bool false)
    else if sliceEq s p (litBytes "null") then parseLiteral s p "null" .null
    else .error "Invalid JSON value"
termination_by structural fuel s pos => fuel

/-- `JSONParser::parseObject` (source lines 106–133), up to the loop head. -/
def parseObject : Nat → List Nat → Nat → Except String (JSONValue × Nat)
  | 0, _, _ => .error "fuel exhausted"
  | fuel + 1, s, pos => do
    let (_, p1) ← consume s pos
    parseObjectLoop fuel s (skipWs s p1) []
termination_by structural fuel s pos => fuel

/-- The `while (peek() != '}')` loop of `parseObject` together with the
closing `consume()`; `fields` is the object built so far. -/
def parseObjectLoop : Nat → List Nat → Nat → List (List Nat × JSONValue) →
    Except String (JSONValue × Nat)
  | 0, _, _, _ => .error "fuel exhausted"
  | fuel + 1, s, pos, fields =>
    if s.getD pos 0 = 125 then do
      let (_, p') ← consume s pos
      return (.obj fields, p')
    else do
      let p1 := skipWs s pos
      let (kv, p2) ← parseString fuel s p1
      let key := match kv with | .str b => b | _ => []
      let p3 := skipWs s p2
      let (c, p4) ← consume s p3
      if c ≠ 58 then throw "Expected ':' in object" else
      let p5 := skipWs s p4
      let (v, p6) ← parseValue fuel s p5
      let fields' := jinsert fields key v
      let p7 := skipWs s p6
      if s.getD p7 0 = 44 then do
        let (_, p8) ← consume s p7
        parseObjectLoop fuel s p8 fields'
      else if s.getD p7 0 = 125 then do
        let (_, p8) ← consume s p7
        return (.obj fields', p8)
      else throw "Expected ',' or '\x7d' in object"
termination_by structural fuel s pos fields => fuel

/-- `JSONParser::parseArray` (source lines 135–155), up to the loop head. -/
def parseArray : Nat → List Nat → Nat → Except String (JSONValue × Nat)
  | 0, _, _ => .error "fuel exhausted"
  | fuel + 1, s, pos => do
    let (_, p1) ← consume s pos
    parseArrayLoop fuel s (skipWs s p1) []
termination_by structural fuel s pos => fuel

/-- The `while (peek() != ']')` loop of `parseArray` together with the
closing `consume()`. -/
def parseArrayLoop : Nat → List Nat → Nat → List JSONValue →
    Except String (JSONValue × Nat)
  | 0, _, _, _ => .error "fuel exhausted"
  | fuel + 1, s, pos, elems =>
    if s.getD pos 0 = 93 then do
      let (_, p') ← consume s pos
      return (.arr elems, p')
    else do
      let p1 := skipWs s pos
      let (v, p2) ← parseValue fuel s p1
      let elems' := elems ++ [v]
      let p3 := skipWs s p2
      if s.getD p3 0 = 44 then do
        let (_, p4) ← consume s p3
        parseArrayLoop fuel s p4 elems'
      else if s.getD p3 0 = 93 then do
        let (_, p4) ← consume s p3
        return (.arr elems', p4)
      else throw "Expected ',' or ']' in array"
termination_by structural fuel s pos elems => fuel

/-- `JSONParser::parseString` (source lines 300–327): the opening byte is
consumed unconditionally (its value is never checked). -/
def parseString : Nat → List Nat → Nat → Except String (JSONValue × Nat)
  | 0, _, _ => .error "fuel exhausted"
  | fuel + 1, s, pos => do
    let (_, p1) ← consume s pos
    parseStringLoop fuel s p1 []
termination_by structural fuel s pos => fuel

/-- The `while (peek() != '"')` loop of `parseString`; `acc` is the bytes
decoded so far.  On `\u` the source appends `"\\u" + unicode` where
`unicode` holds the UTF-8 bytes returned by `parseUnicodeEscape`. -/
def parseStringLoop : Nat → List Nat → Nat → List Nat →
    Except String (JSONValue × Nat)
  | 0, _, _, _ => .error "fuel exhausted"
  | fuel + 1, s, pos, acc =>
    if s.getD pos 0 = 34 then do
      let (_, p') ← consume s pos
      return (.str acc, p')
    else do
      let (current, p1) ← consume s pos
      if current = 92 then do
        let (escaped, p2) ← consume s p1
        if escaped = 34 then parseStringLoop fuel s p2 (acc ++ [34])
        else if escaped = 92 then parseStringLoop fuel s p2 (acc ++ [92])
        else if escaped = 47 then parseStringLoop fuel s p2 (acc ++ [47])
        else if escaped = 98 then parseStringLoop fuel s p2 (acc ++ [8])
        else if escaped = 102 then parseStringLoop fuel s p2 (acc ++ [12])
        else if escaped = 110 then parseStringLoop fuel s p2 (acc ++ [10])
        else if escaped = 114 then parseStringLoop fuel s p2 (acc ++ [13])
        else if escaped = 116 then parseStringLoop fuel s p2 (acc ++ [9])
        else if escaped = 117 then do
          let (unicode, p3) ← parseUnicodeEscape s p2
          parseStringLoop fuel s p3 (acc ++ [92, 117] ++ unicode)
        else throw "Invalid escape character"
      else parseStringLoop fuel s p1 (acc ++ [current])
termination_by structural fuel s pos acc => fuel

end

/-- Fuel supplied by `parse`; generous for any input of this length. -/
def fuelFor (s : List Nat) : Nat := 16 * (s.length + 2)

/-- `JSONParser::parse` (source lines 82–90): skip leading whitespace,
parse one value, skip trailing whitespace, require end of input. -/
def parse (s : List Nat) : Except String JSONValue :=
  match parseValue (fuelFor s) s (skipWs s 0) with
  | .ok (v, p1) =>
      if skipWs s p1 = s.length then .ok v
      else .error "Unexpected characters at end of JSON input"
  | .error e => .error e

mutual

/-- `areEqual` (source lines 524–550): deep equality; objects compare by
size plus per-key lookup (insertion order irrelevant), arrays pointwise. -/
def areEqual : JSONValue → JSONValue → Bool
  | .obj fa, .obj fb => fa.length = fb.length && fieldsSub fa fb
  | .arr ea, .arr eb => ea.length = eb.length && elemsEq ea eb
  | .str a, .str b => a = b
  | .num a, .num b => a = b
  | .bool a, .bool b => a = b
  | .null, .null => true
  | _, _ => false

/-- The object loop of `areEqual`: every binding of `a` is present and
recursively equal in `b`. -/
def fieldsSub : List (List Nat × JSONValue) → List (List Nat × JSONValue) → Bool
  | [], _ => true
  | (k, v) :: rest, b =>
      (match jlookup b k with
       | some w => areEqual v w
       | none => false) && fieldsSub rest b

/-- The array loop of `areEqual`. -/
def elemsEq : List JSONValue → List JSONValue → Bool
  | [], _ => true
  | v :: rest, b =>
      (match b with
       | w :: _ => areEqual v w
       | [] => false) && elemsEq rest b.tail

end

/-- ASCII decimal digits of a natural number. -/
def natDigits (n : Nat) : List Nat := (Nat.toDigits 10 n).map Char.toNat

/-- Zero-pad on the left to six digits. -/
def padSix (ds : List Nat) : List Nat := List.replicate (6 - ds.length) 48 ++ ds

/-- Model of `std::to_string(double)` (C `%f`: fixed notation, exactly six
fractional digits).  On the model's exact rationals the rounding to six
places is round-half-up (`⌊|q|·10⁶ + 1/2⌋` computed on naturals); no
evaluation below sits at a tie. -/
def numToString (q : Dbl) : List Nat :=
  let sign : List Nat := if q.num < 0 then [45] else []
  let scaled : Nat := (q.num.natAbs * 1000000 * 2 + q.den) / (2 * q.den)
  sign ++ natDigits (scaled / 1000000) ++ [46] ++ padSix (natDigits (scaled % 1000000))

mutual

/-- `serializeJSON` (source lines 219–249): compact text; the trailing comma
of a nonempty container is `pop_back`ed; strings are emitted verbatim
between quotes (no re-escaping); numbers via `std::to_string`. -/
def serializeJSON : JSONValue → List Nat
  | .obj fields =>
      [123] ++ (if fields.isEmpty then [] else (serFields fields).dropLast) ++ [125]
  | .arr elems =>
      [91] ++ (if elems.isEmpty then [] else (serElems elems).dropLast) ++ [93]
  | .str b => [34] ++ b ++ [34]
  | .num q => numToString q
  | .bool b => if b then litBytes "true" else litBytes "false"
  | .null => litBytes "null"

/-- The object loop of `serializeJSON`: `"key":value,` per binding. -/
def serFields : List (List Nat × JSONValue) → List Nat
  | [] => []
  | (k, v) :: rest => [34] ++ k ++ [34, 58] ++ serializeJSON v ++ [44] ++ serFields rest

/-- The array loop of `serializeJSON`: `value,` per element. -/
def serElems : List JSONValue → List Nat
  | [] => []
  | v :: rest => serializeJSON v ++ [44] ++ serElems rest

end

/-- `updateJSON` (source lines 329–335): the argument is a plain key looked
up in the root object's own mapping; replaces it there, otherwise throws.
No path splitting and no creation of intermediate nodes occurs. -/
def updateJSON (root : JSONValue) (key : List Nat) (newValue : JSONValue) :
    Except String JSONValue :=
  match root with
  | .obj fields =>
      if (jlookup fields key).isSome then .ok (.obj (jinsert fields key newValue))
      else .error "Key not found or not an object"
  | _ => .error "Key not found or not an object"

mutual

/-- `mergeJSON` (source lines 380–392): both objects ⇒ fold the source's
bindings into the target; otherwise the source replaces the target. -/
def mergeJSON : JSONValue → JSONValue → JSONValue
  | .obj tf, .obj sf => .obj (mergeFields tf sf)
  | _, s => s

/-- The loop of `mergeJSON` over the source's bindings: recurse on a key
already present in the target, insert it otherwise. -/
def mergeFields : List (List Nat × JSONValue) → List (List Nat × JSONValue) →
    List (List Nat × JSONValue)
  | tf, [] => tf
  | tf, (k, v) :: rest =>
      mergeFields
        (match jlookup tf k with
         | some tv => jinsert tf k (mergeJSON tv v)
         | none => jinsert tf k v)
        rest

end

mutual

/-- `flattenJSON` (source lines 467–476): objects recurse with dot-joined
prefixes, every non-object value is stored into the accumulated map under
its full path. -/
def flattenJSON : JSONValue → List (List Nat × JSONValue) → List Nat →
    List (List Nat × JSONValue)
  | .obj fields, acc, pre => flattenFields fields acc pre
  | v, acc, pre => jinsert acc pre v

/-- The object loop of `flattenJSON`; `newKey = prefix.empty() ? key :
prefix + "." + key`. -/
def flattenFields : List (List Nat × JSONValue) → List (List Nat × JSONValue) →
    List Nat → List (List Nat × JSONValue)
  | [], acc, _ => acc
  | (k, v) :: rest, acc, pre =>
      flattenFields rest (flattenJSON v acc (if pre = [] then k else pre ++ 46 :: k)) pre

end

/-- Full split of a byte string at `.` (one part more than delimiters). -/
def splitAll : List Nat → List (List Nat)
  | [] => [[]]
  | c :: rest =>
      if c = 46 then [] :: splitAll rest
      else
        match splitAll rest with
        | t :: ts => (c :: t) :: ts
        | [] => [[c]]

/-- `std::getline(ss, token, '.')` tokenisation: an empty string yields no
tokens, and a trailing delimiter yields no trailing empty token. -/
def splitOnDot (s : List Nat) : List (List Nat) :=
  if s = [] then [] else if s.getLast? = some 46 then (splitAll s).dropLast
  else splitAll s

/-- The pointer walk of `unflattenJSON` (source lines 483–494) for one flat
entry: force the current node to OBJECT, create a missing child as an empty
object, descend, and assign the stored value at the final segment. -/
def setPath (cur : JSONValue) (segs : List (List Nat)) (val : JSONValue) : JSONValue :=
  match segs with
  | [] => val
  | seg :: rest =>
      let fields := match cur with | .obj f => f | _ => []
      let child := match jlookup fields seg with | some c => c | none => .obj []
      .obj (jinsert fields seg (setPath child rest val))

/-- `unflattenJSON` (source lines 478–497): rebuild nested objects from the
flat map, starting from an empty object. -/
def unflattenJSON (flattened : List (List Nat × JSONValue)) : JSONValue :=
  flattened.foldl (fun acc kv => setPath acc (splitOnDot kv.1) kv.2) (.obj [])

/-- Tag test: is the value an OBJECT? -/
def isObjB : JSONValue → Bool
  | .obj _ => true
  | _ => false

/-- The key list of an association list. -/
def keysOf (m : List (List Nat × JSONValue)) : List (List Nat) := m.map Prod.fst

/-- Key uniqueness of one association-list level (the `unordered_map`
invariant of the source's object representation). -/
def keysUnique : List (List Nat × JSONValue) → Bool
  | [] => true
  | (k, _) :: rest => !decide (k ∈ keysOf rest) && keysUnique rest

/-- The node `unflattenJSON` continues from under key `k`: the existing
child if present, a freshly created empty object otherwise. -/
def childD (f : List (List Nat × JSONValue)) (k : List Nat) : JSONValue :=
  match jlookup f k with
  | some c => c
  | none => .obj []

/-- Dot-join a list of path segments (inverse image of `splitOnDot` on
nonempty dot-free segments). -/
def joinSegs : List (List Nat) → List Nat
  | [] => []
  | [s] => s
  | s :: t :: rest => s ++ 46 :: joinSegs (t :: rest)

mutual

/-- Specification-side view of `flattenJSON`: the list of (path, leaf)
entries it appends, in traversal order, below prefix `pre`. -/
def flatItems : List Nat → JSONValue → List (List Nat × JSONValue)
  | pre, .obj fields => flatItemsF pre fields
  | pre, v => [(pre, v)]

/-- `flatItems` over an object's bindings. -/
def flatItemsF : List Nat → List (List Nat × JSONValue) → List (List Nat × JSONValue)
  | _, [] => []
  | pre, (k, v) :: rest =>
      flatItems (if pre = [] then k else pre ++ 46 :: k) v ++ flatItemsF pre rest

end

mutual

/-- Leaf entries of a value addressed by their segment lists instead of
joined paths. -/
def addrItems : JSONValue → List (List (List Nat) × JSONValue)
  | .obj fields => addrItemsF fields
  | v => [([], v)]

/-- `addrItems` over an object's bindings: each child's addresses gain the
binding's key as head segment. -/
def addrItemsF : List (List Nat × JSONValue) → List (List (List Nat) × JSONValue)
  | [] => []
  | (k, v) :: rest => (addrItems v).map (fun al => (k :: al.1, al.2)) ++ addrItemsF rest

end

mutual

/-- Structural condition under which `flattenJSON` is lossless for a value
in child position: nested objects are nonempty, and all keys are nonempty,
dot-free and unique on their level. -/
def goodVal : JSONValue → Bool
  | .obj fields => !fields.isEmpty && goodFields fields
  | _ => true

/-- `goodVal` over an object's bindings (plus nonemptiness, dot-freeness
and uniqueness of the keys). -/
def goodFields : List (List Nat × JSONValue) → Bool
  | [] => true
  | (k, v) :: rest =>
      !decide (k = []) && !decide (46 ∈ k) && !decide (k ∈ keysOf rest) &&
        goodVal v && goodFields rest

end

mutual

/-- Key uniqueness at every nesting level, including inside arrays (the
`unordered_map` invariant of every object node; `areEqual` is reflexive
exactly on such values). -/
def uniqVal : JSONValue → Bool
  | .obj fields => uniqFields fields
  | .arr es => uniqElems es
  | _ => true

/-- `uniqVal` over an object's bindings. -/
def uniqFields : List (List Nat × JSONValue) → Bool
  | [] => true
  | (k, v) :: rest => !decide (k ∈ keysOf rest) && uniqVal v && uniqFields rest

/-- `uniqVal` over an array's elements. -/
def uniqElems : List JSONValue → Bool
  | [] => true
  | v :: rest => uniqVal v && uniqElems rest

end

/-- The `n+1`-deep nested array value `[[…[]…]]`. -/
def deepArr : Nat → JSONValue
  | 0 => .arr []
  | n + 1 => .arr [deepArr n]

/-! ## Shared lemmas -/

/-- A position holding a nonzero byte is inside the input (past the end,
`peek` yields the default `0`). -/
theorem getD_lt_of_ne {s : List Nat} {p : Nat} (h : s.getD p 0 ≠ 0) :
    p < s.length := by
  by_contra hc
  exact h (List.getD_eq_default _ _ (Nat.le_of_not_lt hc))

/-! ## C1 – C3, C6, C7: concrete evaluations of the embedded code -/

/-- C1: the round-trip contract `areEqual (parse (serializeJSON v)) v`
fails on the code: for the string value holding one `"` byte, the
serializer emits the quote unescaped (`\x22\x22\x22`), and parsing that
text stops after an empty string and rejects the leftover quote as
trailing data, so `parse (serializeJSON v)` does not even succeed. -/
theorem serialize_quote_breaks_round_trip :
    serializeJSON (JSONValue.str [34]) = [34, 34, 34] ∧
    parse (serializeJSON (JSONValue.str [34])) =
      .error "Unexpected characters at end of JSON input" :=
  ⟨rfl, rfl⟩

/-- C2: parsing the document `"é"` (bytes 34 92 117 48 48 101 57 34)
yields the string whose content is `\u` followed by the UTF-8 bytes
0xC3 0xA9 — the escape prefix is left in the decoded string (source line
317 appends `"\\u" + unicode`), not the bare two-byte encoding 0xC3 0xA9
the claim requires. -/
theorem unicode_escape_left_in_decoded_string :
    parse [34, 92, 117, 48, 48, 101, 57, 34] =
      .ok (.str [92, 117, 0xC3, 0xA9]) :=
  rfl

/-- C3: `parseNumber`'s scan set has no `e`/`E`, so on `{"x":1.5e3}` the
scan stops after `1.5` (position 3 of `1.5e3`) and the object loop then
fails on the letter `e`; the parse does not succeed with 1500. -/
theorem exponent_number_fails :
    scanNum [49, 46, 53, 101, 51] 0 = 3 ∧
    parse [123, 34, 120, 34, 58, 49, 46, 53, 101, 51, 125] =
      .error "Expected ',' or '\x7d' in object" :=
  ⟨rfl, rfl⟩

set_option maxRecDepth 40000 in
/-- C6: no recursion-depth bound exists anywhere in the parser: the
100-deep nested array `[[…[]…]]` parses successfully (its recursion depth
equals the nesting depth), and no `MaxDepthExceeded` error kind exists to
be produced. -/
theorem deep_nesting_parses_without_depth_error :
    parse (List.replicate 100 91 ++ List.replicate 100 93) =
      .ok (deepArr 99) :=
  rfl

/-- C7: `updateJSON` treats its argument as one literal key of the root
object: the dotted path `a.b` on `{"a":{"b":1}}` is not found and throws,
while only a root-level existing key is replaced. -/
theorem update_dotted_path_rejected :
    updateJSON (.obj [([97], .obj [([98], .num ⟨1, 1⟩)])]) [97, 46, 98]
        (.num ⟨2, 1⟩) = .error "Key not found or not an object" ∧
    updateJSON (.obj [([97], .num ⟨1, 1⟩)]) [97] (.num ⟨2, 1⟩) =
      .ok (.obj [([97], .num ⟨2, 1⟩)]) :=
  ⟨rfl, rfl⟩

/-! ## C10: the opening quote of a key is never checked -/

/-- C10: `parseString` consumes its first byte unconditionally — whenever
the position is in bounds, it proceeds to the scan loop at the next
position whatever that byte was (no check that it is `"`); consequently
the malformed document `{name":1}` (no opening quote on the key) parses
successfully to the object with key `ame` and value 1. -/
theorem key_open_quote_unchecked :
    (∀ fuel s pos, pos < s.length →
      parseString (fuel + 1) s pos = parseStringLoop fuel s (pos + 1) []) ∧
    parse [123, 110, 97, 109, 101, 34, 58, 49, 125] =
      .ok (.obj [([97, 109, 101], .num ⟨1, 1⟩)]) := by
  refine ⟨fun fuel s pos h => ?_, rfl⟩
  simp only [parseString]
  rw [consume, if_pos h]
  rfl

/-- Witness for C10's universally quantified part at a concrete input. -/
theorem key_open_quote_unchecked_witness :
    (0 : Nat) < ([110, 34] : List Nat).length ∧
    parseString 5 [110, 34] 0 = parseStringLoop 4 [110, 34] 1 [] :=
  ⟨by decide, key_open_quote_unchecked.1 4 [110, 34] 0 (by decide)⟩

/-! ## C4: a comma directly followed by `}` is accepted -/

/-- C4 counterexample: `parse({"a":1,})` does not fail — it succeeds and
returns the object `{"a":1}`, because the loop of `parseObject` re-checks
for `}` at its top after consuming the comma. -/
theorem trailing_comma_object_accepted :
    parse [123, 34, 97, 34, 58, 49, 44, 125] =
      .ok (.obj [([97], .num ⟨1, 1⟩)]) :=
  rfl

/-- C4 amended: whenever the object loop is at its top with `}` as the next
byte — in particular right after a consumed comma — it exits successfully,
returning the object built so far; a dangling trailing comma is therefore
accepted, not rejected with `ExpectedCommaOrBrace`. -/
theorem object_loop_brace_after_comma :
    ∀ fuel s pos fields, s.getD pos 0 = 125 →
      parseObjectLoop (fuel + 1) s pos fields = .ok (.obj fields, pos + 1) := by
  intro fuel s pos fields h
  have hlt : pos < s.length := getD_lt_of_ne (by rw [h]; decide)
  simp only [parseObjectLoop]
  rw [if_pos h]
  simp [consume, hlt, Except.bind]

/-- Witness for C4's amended statement at a concrete input. -/
theorem object_loop_brace_after_comma_witness :
    ([125] : List Nat).getD 0 0 = 125 ∧
    parseObjectLoop 1 [125] 0 [] = .ok (.obj [], 1) :=
  ⟨rfl, object_loop_brace_after_comma 0 [125] 0 [] rfl⟩

/-! ## C5: the single-document, fully-consumed contract -/

/-- The whitespace skip never moves backwards. -/
theorem skipWsA_ge : ∀ n s p, p ≤ skipWsA n s p := by
  intro n
  induction n with
  | zero => intro s p; simp [skipWsA]
  | succ n ih =>
      intro s p
      simp only [skipWsA]
      split
      · exact Nat.le_trans (Nat.le_succ p) (ih s (p + 1))
      · exact Nat.le_refl p

/-- If everything from `p` to the end is whitespace, the skip reaches the
end of the input. -/
theorem skipWsA_all_ws : ∀ n s p, s.length - p ≤ n → p ≤ s.length →
    (∀ i, p ≤ i → i < s.length → isWsB (s.getD i 0) = true) →
    skipWsA n s p = s.length := by
  intro n
  induction n with
  | zero =>
      intro s p h1 h2 _
      have : p = s.length := by omega
      simp [skipWsA, this]
  | succ n ih =>
      intro s p h1 h2 hws
      rcases Nat.lt_or_ge p s.length with hlt | hge
      · have hw : isWsB (s.getD p 0) = true := hws p (Nat.le_refl p) hlt
        simp only [skipWsA, hlt, hw, and_self, if_true]
        exact ih s (p + 1) (by omega) (by omega)
          (fun i hi hil => hws i (by omega) hil)
      · have : p = s.length := by omega
        simp [skipWsA, this]

/-- If the skip reaches the end of the input, everything it passed over is
whitespace. -/
theorem skipWsA_ws_of_eq_length : ∀ n s p, skipWsA n s p = s.length →
    ∀ i, p ≤ i → i < s.length → isWsB (s.getD i 0) = true := by
  intro n
  induction n with
  | zero =>
      intro s p h i hi hil
      simp only [skipWsA] at h
      omega
  | succ n ih =>
      intro s p h i hi hil
      simp only [skipWsA] at h
      by_cases hc : p < s.length ∧ isWsB (s.getD p 0)
      · rw [if_pos hc] at h
        rcases Nat.eq_or_lt_of_le hi with he | hlt
        · rw [← he]; exact hc.2
        · exact ih s (p + 1) h i hlt hil
      · rw [if_neg hc] at h
        omega

/-- Bridge: `skipWs` never moves backwards. -/
theorem skipWs_ge (s : List Nat) (p : Nat) : p ≤ skipWs s p := by
  unfold skipWs; exact skipWsA_ge _ s p

/-- Bridge: all-whitespace tail implies the skip reaches the end. -/
theorem skipWs_all_ws (s : List Nat) (p : Nat) (h1 : p ≤ s.length)
    (hws : ∀ i, p ≤ i → i < s.length → isWsB (s.getD i 0) = true) :
    skipWs s p = s.length := by
  unfold skipWs; exact skipWsA_all_ws _ s p (Nat.le_refl _) h1 hws

/-- Bridge: if the skip reaches the end, the tail was all whitespace. -/
theorem skipWs_ws_of_eq_length (s : List Nat) (p : Nat)
    (h : skipWs s p = s.length) :
    ∀ i, p ≤ i → i < s.length → isWsB (s.getD i 0) = true := by
  unfold skipWs at h; exact skipWsA_ws_of_eq_length _ s p h

/-- C5: `parse` succeeds with `v` exactly when `parseValue` (entered after
the leading-whitespace skip) produces `v` at a position from which only
whitespace remains; and whenever a non-whitespace byte remains after the
parsed value, `parse` fails with the trailing-data error.  This is the
single-document, fully-consumed contract of source lines 82-90. -/
theorem parse_single_document_contract :
    (∀ s v, parse s = .ok v ↔
      ∃ p1, parseValue (fuelFor s) s (skipWs s 0) = .ok (v, p1) ∧
        p1 ≤ s.length ∧
        ∀ i, p1 ≤ i → i < s.length → isWsB (s.getD i 0) = true) ∧
    (∀ s v p1 i, parseValue (fuelFor s) s (skipWs s 0) = .ok (v, p1) →
      p1 ≤ i → i < s.length → isWsB (s.getD i 0) = false →
      parse s = .error "Unexpected characters at end of JSON input") := by
  constructor
  · intro s v
    constructor
    · intro h
      unfold parse at h
      split at h
      next v' p1 heq =>
        split at h
        next hend =>
          cases h
          exact ⟨p1, heq,
            Nat.le_trans (skipWs_ge s p1) (Nat.le_of_eq hend),
            skipWs_ws_of_eq_length s p1 hend⟩
        next => cases h
      next e heq => cases h
    · rintro ⟨p1, hpv, hple, hws⟩
      unfold parse
      simp only [hpv]
      rw [if_pos (skipWs_all_ws s p1 hple hws)]
  · intro s v p1 i hpv hpi hil hwsf
    unfold parse
    simp only [hpv]
    have hne : skipWs s p1 ≠ s.length := by
      intro he
      have := skipWs_ws_of_eq_length s p1 he i hpi hil
      rw [hwsf] at this
      cases this
    rw [if_neg hne]

/-- Witness for C5 on the input `null x`: the value parse ends at position
4 and the non-whitespace `x` at position 5 forces the trailing-data
error. -/
theorem parse_single_document_contract_witness :
    parseValue (fuelFor [110, 117, 108, 108, 32, 120])
        [110, 117, 108, 108, 32, 120]
        (skipWs [110, 117, 108, 108, 32, 120] 0) = .ok (.null, 4) ∧
    parse [110, 117, 108, 108, 32, 120] =
      .error "Unexpected characters at end of JSON input" :=
  ⟨rfl, parse_single_document_contract.2 [110, 117, 108, 108, 32, 120]
    .null 4 5 rfl (by decide) (by decide) rfl⟩

/-! ## C8: deep-merge semantics -/

/-- Looking up the key just inserted yields the inserted value. -/
theorem jlookup_jinsert_self : ∀ m k v, jlookup (jinsert m k v) k = some v := by
  intro m k v
  induction m with
  | nil => simp [jinsert, jlookup]
  | cons hd tl ih =>
      obtain ⟨k', w⟩ := hd
      by_cases h : k' = k
      · simp [jinsert, h, jlookup]
      · simp [jinsert, h, jlookup, ih]

/-- Inserting one key leaves every other key's lookup unchanged. -/
theorem jlookup_jinsert_ne : ∀ m k v k', k' ≠ k →
    jlookup (jinsert m k v) k' = jlookup m k' := by
  intro m k v k' hne
  have hne' : ¬(k = k') := fun h => hne h.symm
  induction m with
  | nil => simp [jinsert, jlookup, hne']
  | cons hd tl ih =>
      obtain ⟨k0, w⟩ := hd
      by_cases h : k0 = k
      · subst h
        simp [jinsert, jlookup, hne']
      · simp [jinsert, h, jlookup, ih]

/-- Merging bindings whose keys avoid `k` leaves `k`'s lookup unchanged. -/
theorem mergeFields_jlookup_not_mem : ∀ sf tf k, k ∉ keysOf sf →
    jlookup (mergeFields tf sf) k = jlookup tf k := by
  intro sf
  induction sf with
  | nil => intro tf k _; rfl
  | cons hd rest ih =>
      obtain ⟨k', v'⟩ := hd
      intro tf k hk
      have hne : k ≠ k' := by
        intro he; exact hk (by simp [keysOf, he])
      have hrest : k ∉ keysOf rest := by
        intro hm; exact hk (by simp [keysOf] at hm ⊢; exact Or.inr hm)
      show jlookup (mergeFields _ rest) k = jlookup tf k
      rw [ih _ k hrest]
      cases htf : jlookup tf k' <;> simp [htf, jlookup_jinsert_ne _ _ _ _ hne]

/-- C8: `mergeJSON` semantics — when either side is not an object the
source wholly replaces the target; when both are objects, each source
key's lookup in the result is the recursive merge of the two values when
the target also has the key, the source value when only the source has
it, and the target's binding for keys the source lacks; on the spec's
example `{"a":1,"b":{"x":1}}` merged with `{"b":{"y":2}}` the result
deep-equals `{"a":1,"b":{"x":1,"y":2}}`. -/
theorem merge_object_semantics :
    (∀ t s, isObjB t = false ∨ isObjB s = false → mergeJSON t s = s) ∧
    (∀ sf tf k, keysUnique sf = true →
      jlookup (mergeFields tf sf) k =
        match jlookup sf k with
        | some sv =>
            some (match jlookup tf k with
                  | some tv => mergeJSON tv sv
                  | none => sv)
        | none => jlookup tf k) ∧
    areEqual
      (mergeJSON
        (.obj [([97], .num ⟨1, 1⟩), ([98], .obj [([120], .num ⟨1, 1⟩)])])
        (.obj [([98], .obj [([121], .num ⟨2, 1⟩)])]))
      (.obj [([97], .num ⟨1, 1⟩),
             ([98], .obj [([120], .num ⟨1, 1⟩), ([121], .num ⟨2, 1⟩)])]) =
      true := by
  refine ⟨?_, ?_, rfl⟩
  · intro t s h
    rcases t with tf | ta | ts | tn | tb | _ <;>
      rcases s with sf | sa | ss | sn | sb | _ <;>
      first
      | rfl
      | (exfalso; simp [isObjB] at h)
  · intro sf
    induction sf with
    | nil => intro tf k _; rfl
    | cons hd rest ih =>
        obtain ⟨k', v'⟩ := hd
        intro tf k hu
        simp only [keysUnique, Bool.and_eq_true, Bool.not_eq_true',
          decide_eq_false_iff_not] at hu
        obtain ⟨hk', hrest⟩ := hu
        show jlookup (mergeFields _ rest) k = _
        by_cases hkk : k = k'
        · subst hkk
          rw [mergeFields_jlookup_not_mem rest _ k hk']
          cases htf : jlookup tf k <;>
            simp [jlookup, htf, jlookup_jinsert_self]
        · rw [ih _ k hrest]
          have hkk' : ¬(k' = k) := fun h => hkk h.symm
          have h1 : jlookup ((k', v') :: rest) k = jlookup rest k := by
            simp [jlookup, hkk']
          rw [h1]
          cases htf : jlookup tf k' <;>
            simp [htf, jlookup_jinsert_ne _ _ _ _ hkk]

/-- Witness for C8 at concrete inputs: a non-object target is wholly
replaced, and the lookup characterization at a one-binding source. -/
theorem merge_object_semantics_witness :
    (isObjB JSONValue.null = false ∨ isObjB (JSONValue.num ⟨1, 1⟩) = false) ∧
    mergeJSON JSONValue.null (JSONValue.num ⟨1, 1⟩) = JSONValue.num ⟨1, 1⟩ ∧
    keysUnique [([97], JSONValue.num ⟨2, 1⟩)] = true ∧
    jlookup (mergeFields [] [([97], JSONValue.num ⟨2, 1⟩)]) [97] =
      some (JSONValue.num ⟨2, 1⟩) :=
  ⟨Or.inl rfl,
   merge_object_semantics.1 JSONValue.null (JSONValue.num ⟨1, 1⟩) (Or.inl rfl),
   rfl,
   merge_object_semantics.2.1 [([97], JSONValue.num ⟨2, 1⟩)] [] [97] rfl⟩

/-! ## C9: flatten / unflatten -/

/-- A dot-free byte string splits into itself. -/
theorem splitAll_no_dot : ∀ s : List Nat, 46 ∉ s → splitAll s = [s] := by
  intro s
  induction s with
  | nil => intro _; rfl
  | cons c rest ih =>
      intro h
      have hc : ¬(c = 46) := fun he => h (by simp [he])
      have hr : 46 ∉ rest := fun hm => h (by simp [hm])
      simp [splitAll, hc, ih hr]

/-- Splitting after a dot-free block peels the block off. -/
theorem splitAll_append : ∀ a t : List Nat, 46 ∉ a →
    splitAll (a ++ 46 :: t) = a :: splitAll t := by
  intro a
  induction a with
  | nil => intro t _; simp [splitAll]
  | cons c a' ih =>
      intro t h
      have hc : ¬(c = 46) := fun he => h (by simp [he])
      have ha : 46 ∉ a' := fun hm => h (by simp [hm])
      rw [List.cons_append]
      simp only [splitAll, hc, if_false]
      rw [ih t ha]

/-- A nonempty list of nonempty segments joins to a nonempty string. -/
theorem joinSegs_ne_nil : ∀ segs : List (List Nat), segs ≠ [] →
    (∀ a ∈ segs, a ≠ []) → joinSegs segs ≠ [] := by
  intro segs h1 h2
  match segs with
  | [s] => exact h2 s (by simp)
  | s :: t :: rest => simp [joinSegs]

/-- Joining good segments never ends in a dot. -/
theorem joinSegs_getLast_ne_dot : ∀ segs : List (List Nat), segs ≠ [] →
    (∀ a ∈ segs, a ≠ [] ∧ 46 ∉ a) → (joinSegs segs).getLast? ≠ some 46 := by
  intro segs
  induction segs with
  | nil => intro h; cases h rfl
  | cons s rest ih =>
      intro _ hg
      cases rest with
      | nil =>
          intro hl
          have hm : (46 : Nat) ∈ s := List.mem_of_mem_getLast? hl
          exact (hg s (by simp)).2 hm
      | cons t rest' =>
          have hJ : joinSegs (t :: rest') ≠ [] :=
            joinSegs_ne_nil _ (by simp) (fun a ha => (hg a (by simp [ha])).1)
          show (joinSegs (s :: t :: rest')).getLast? ≠ some 46
          rw [show joinSegs (s :: t :: rest') = s ++ 46 :: joinSegs (t :: rest') from rfl]
          rw [List.getLast?_append_of_ne_nil s (by simp)]
          rw [show (46 :: joinSegs (t :: rest') : List Nat) = [46] ++ joinSegs (t :: rest') from rfl]
          rw [List.getLast?_append_of_ne_nil [46] hJ]
          exact ih (by simp) (fun a ha => hg a (by simp [ha]))

/-- `splitOnDot` inverts `joinSegs` on nonempty lists of nonempty dot-free
segments (the `getline` tokenisation recovers exactly the joined
segments). -/
theorem splitOnDot_joinSegs : ∀ segs : List (List Nat), segs ≠ [] →
    (∀ a ∈ segs, a ≠ [] ∧ 46 ∉ a) → splitOnDot (joinSegs segs) = segs := by
  intro segs
  induction segs with
  | nil => intro h; cases h rfl
  | cons s rest ih =>
      intro _ hg
      have hs : s ≠ [] ∧ 46 ∉ s := hg s (by simp)
      cases rest with
      | nil =>
          show splitOnDot (joinSegs [s]) = [s]
          rw [show joinSegs [s] = s from rfl]
          unfold splitOnDot
          rw [if_neg hs.1]
          rw [if_neg (fun hsome : s.getLast? = some 46 =>
            hs.2 (List.mem_of_mem_getLast? (Option.mem_def.mpr hsome)))]
          exact splitAll_no_dot s hs.2
      | cons t rest' =>
          have hgr : ∀ a ∈ t :: rest', a ≠ [] ∧ 46 ∉ a :=
            fun a ha => hg a (by simp [ha])
          have hJ : joinSegs (t :: rest') ≠ [] :=
            joinSegs_ne_nil _ (by simp) (fun a ha => (hgr a ha).1)
          have hIH := ih (by simp) hgr
          have hlast : (joinSegs (s :: t :: rest')).getLast? ≠ some 46 :=
            joinSegs_getLast_ne_dot _ (by simp) hg
          have hlast' : (joinSegs (t :: rest')).getLast? ≠ some 46 :=
            joinSegs_getLast_ne_dot _ (by simp) hgr
          have hne : joinSegs (s :: t :: rest') ≠ [] := by
            rw [show joinSegs (s :: t :: rest') = s ++ 46 :: joinSegs (t :: rest') from rfl]
            simp
          unfold splitOnDot
          rw [if_neg hne]
          rw [if_neg (by
            intro hsome
            exact hlast (by simpa using hsome))]
          rw [show joinSegs (s :: t :: rest') = s ++ 46 :: joinSegs (t :: rest') from rfl]
          rw [splitAll_append s _ hs.2]
          unfold splitOnDot at hIH
          rw [if_neg hJ] at hIH
          rw [if_neg (by
            intro hsome
            exact hlast' (by simpa using hsome))] at hIH
          rw [hIH]

/-- Appending one segment to a nonempty list extends the join with a dot. -/
theorem joinSegs_append_single : ∀ P : List (List Nat), ∀ k, P ≠ [] →
    joinSegs (P ++ [k]) = joinSegs P ++ 46 :: k := by
  intro P
  induction P with
  | nil => intro k h; cases h rfl
  | cons p P' ih =>
      intro k _
      cases P' with
      | nil => rfl
      | cons q P'' =>
          show joinSegs (p :: (q :: P'' ++ [k])) = (p ++ 46 :: joinSegs (q :: P'')) ++ 46 :: k
          rw [show joinSegs (p :: (q :: P'' ++ [k])) =
            p ++ 46 :: joinSegs (q :: P'' ++ [k]) from rfl]
          rw [ih k (by simp)]
          simp

/-- An absent key's lookup is `none`. -/
theorem jlookup_none_of_not_mem : ∀ m : List (List Nat × JSONValue), ∀ k,
    k ∉ keysOf m → jlookup m k = none := by
  intro m
  induction m with
  | nil => intro k _; rfl
  | cons hd tl ih =>
      obtain ⟨k0, w⟩ := hd
      intro k hk
      have h0 : ¬(k0 = k) := fun he => hk (by simp [keysOf, he])
      have ht : k ∉ keysOf tl := fun hm => hk (by simp [keysOf] at hm ⊢; exact Or.inr hm)
      simp [jlookup, h0, ih k ht]

/-- Inserting an absent key appends the binding. -/
theorem jinsert_not_mem : ∀ m : List (List Nat × JSONValue), ∀ k v,
    k ∉ keysOf m → jinsert m k v = m ++ [(k, v)] := by
  intro m
  induction m with
  | nil => intro k v _; rfl
  | cons hd tl ih =>
      obtain ⟨k0, w⟩ := hd
      intro k v hk
      have h0 : ¬(k0 = k) := fun he => hk (by simp [keysOf, he])
      have ht : k ∉ keysOf tl := fun hm => hk (by simp [keysOf] at hm ⊢; exact Or.inr hm)
      simp [jinsert, h0, ih k v ht]

/-- Re-inserting at the same key overwrites the first insertion. -/
theorem jinsert_jinsert_same : ∀ m : List (List Nat × JSONValue), ∀ k v w,
    jinsert (jinsert m k v) k w = jinsert m k w := by
  intro m
  induction m with
  | nil => intro k v w; simp [jinsert]
  | cons hd tl ih =>
      obtain ⟨k0, u⟩ := hd
      intro k v w
      by_cases h : k0 = k
      · simp [jinsert, h]
      · simp [jinsert, h, ih]

mutual

/-- `flattenJSON` appends exactly its `flatItems` to the accumulated map,
provided the new paths are pairwise distinct and absent from the
accumulator (each `jinsert` then appends). -/
theorem flatten_append : ∀ (v : JSONValue) (acc : List (List Nat × JSONValue)) (pre : List Nat),
    ((flatItems pre v).map Prod.fst).Nodup →
    (∀ p ∈ (flatItems pre v).map Prod.fst, p ∉ keysOf acc) →
    flattenJSON v acc pre = acc ++ flatItems pre v
  | .obj fields, acc, pre, hnd, hfr => flattenF_append fields acc pre hnd hfr
  | .arr es, acc, pre, _, hfr =>
      jinsert_not_mem acc pre _ (hfr pre (by simp [flatItems]))
  | .str b, acc, pre, _, hfr =>
      jinsert_not_mem acc pre _ (hfr pre (by simp [flatItems]))
  | .num q, acc, pre, _, hfr =>
      jinsert_not_mem acc pre _ (hfr pre (by simp [flatItems]))
  | .bool b, acc, pre, _, hfr =>
      jinsert_not_mem acc pre _ (hfr pre (by simp [flatItems]))
  | .null, acc, pre, _, hfr =>
      jinsert_not_mem acc pre _ (hfr pre (by simp [flatItems]))
termination_by v => sizeOf v

/-- `flatten_append` over an object's bindings. -/
theorem flattenF_append : ∀ (fields : List (List Nat × JSONValue))
    (acc : List (List Nat × JSONValue)) (pre : List Nat),
    ((flatItemsF pre fields).map Prod.fst).Nodup →
    (∀ p ∈ (flatItemsF pre fields).map Prod.fst, p ∉ keysOf acc) →
    flattenFields fields acc pre = acc ++ flatItemsF pre fields
  | [], acc, pre, _, _ => by simp [flattenFields, flatItemsF]
  | (k, v) :: rest, acc, pre, hnd, hfr => by
      have hsplit : flatItemsF pre ((k, v) :: rest) =
          flatItems (if pre = [] then k else pre ++ 46 :: k) v ++ flatItemsF pre rest := rfl
      rw [hsplit, List.map_append] at hnd hfr
      obtain ⟨hnd1, hnd2, hdisj⟩ := List.nodup_append.mp hnd
      have hfr1 : ∀ p ∈ (flatItems (if pre = [] then k else pre ++ 46 :: k) v).map Prod.fst,
          p ∉ keysOf acc :=
        fun p hp => hfr p (List.mem_append_left _ hp)
      have h1 := flatten_append v acc (if pre = [] then k else pre ++ 46 :: k) hnd1 hfr1
      have hfr2 : ∀ p ∈ (flatItemsF pre rest).map Prod.fst,
          p ∉ keysOf (acc ++ flatItems (if pre = [] then k else pre ++ 46 :: k) v) := by
        intro p hp hmem
        have hk : keysOf (acc ++ flatItems (if pre = [] then k else pre ++ 46 :: k) v) =
            keysOf acc ++ (flatItems (if pre = [] then k else pre ++ 46 :: k) v).map Prod.fst := by
          simp [keysOf]
        rw [hk] at hmem
        rcases List.mem_append.mp hmem with hma | hmv
        · exact hfr p (List.mem_append_right _ hp) hma
        · exact hdisj hmv hp
      have h2 := flattenF_append rest
        (acc ++ flatItems (if pre = [] then k else pre ++ 46 :: k) v) pre hnd2 hfr2
      show flattenFields rest (flattenJSON v acc (if pre = [] then k else pre ++ 46 :: k)) pre =
        acc ++ (flatItems (if pre = [] then k else pre ++ 46 :: k) v ++ flatItemsF pre rest)
      rw [h1, h2, List.append_assoc]
termination_by fields => sizeOf fields

end

mutual

/-- Under a good prefix, `flatItems` is `addrItems` with each segment-list
address joined into a dotted path. -/
theorem flatItems_eq_addr : ∀ (v : JSONValue) (P : List (List Nat)),
    (∀ a ∈ P, a ≠ []) → goodVal v = true →
    flatItems (joinSegs P) v =
      (addrItems v).map (fun al => (joinSegs (P ++ al.1), al.2))
  | .obj fields, P, hP, hg => by
      simp only [goodVal, Bool.and_eq_true] at hg
      exact flatItemsF_eq_addr fields P hP hg.2
  | .arr es, P, _, _ => by simp [flatItems, addrItems]
  | .str b, P, _, _ => by simp [flatItems, addrItems]
  | .num q, P, _, _ => by simp [flatItems, addrItems]
  | .bool b, P, _, _ => by simp [flatItems, addrItems]
  | .null, P, _, _ => by simp [flatItems, addrItems]
termination_by v => sizeOf v

/-- `flatItems_eq_addr` over an object's bindings. -/
theorem flatItemsF_eq_addr : ∀ (fields : List (List Nat × JSONValue))
    (P : List (List Nat)),
    (∀ a ∈ P, a ≠ []) → goodFields fields = true →
    flatItemsF (joinSegs P) fields =
      (addrItemsF fields).map (fun al => (joinSegs (P ++ al.1), al.2))
  | [], _, _, _ => rfl
  | (k, v) :: rest, P, hP, hg => by
      simp only [goodFields, Bool.and_eq_true, Bool.not_eq_true',
        decide_eq_false_iff_not] at hg
      obtain ⟨⟨⟨⟨hkne, hkdot⟩, hkmem⟩, hgv⟩, hgr⟩ := hg
      have hkey : (if joinSegs P = [] then k else joinSegs P ++ 46 :: k) =
          joinSegs (P ++ [k]) := by
        cases P with
        | nil => rfl
        | cons p P' =>
            rw [if_neg (joinSegs_ne_nil (p :: P') (by simp) hP)]
            exact (joinSegs_append_single (p :: P') k (by simp)).symm
      have hP' : ∀ a ∈ P ++ [k], a ≠ [] := by
        intro a ha
        rcases List.mem_append.mp ha with h | h
        · exact hP a h
        · simp at h; rw [h]; exact hkne
      have h1 := flatItems_eq_addr v (P ++ [k]) hP' hgv
      have h2 := flatItemsF_eq_addr rest P hP hgr
      show flatItems (if joinSegs P = [] then k else joinSegs P ++ 46 :: k) v ++
          flatItemsF (joinSegs P) rest =
        ((addrItems v).map (fun al => (k :: al.1, al.2)) ++ addrItemsF rest).map
          (fun al => (joinSegs (P ++ al.1), al.2))
      rw [hkey, h1, h2, List.map_append, List.map_map]
      congr 1
      apply List.map_congr_left
      intro al _
      simp [Function.comp, List.append_assoc]
termination_by fields => sizeOf fields

end

/-- Each address produced under an object starts with one of its keys. -/
theorem addrF_head_keys : ∀ (fields : List (List Nat × JSONValue)) al,
    al ∈ addrItemsF fields → ∃ k t, al.1 = k :: t ∧ k ∈ keysOf fields := by
  intro fields
  induction fields with
  | nil => intro al h; simp [addrItemsF] at h
  | cons hd rest ih =>
      obtain ⟨k, v⟩ := hd
      intro al h
      rcases List.mem_append.mp h with h1 | h2
      · obtain ⟨al', _, rfl⟩ := List.mem_map.mp h1
        exact ⟨k, al'.1, rfl, by simp [keysOf]⟩
      · obtain ⟨k', t', he, hm⟩ := ih al h2
        exact ⟨k', t', he, by simp [keysOf] at hm ⊢; exact Or.inr hm⟩

mutual

/-- A good value yields at least one leaf entry. -/
theorem addrItems_ne_nil : ∀ (v : JSONValue), goodVal v = true → addrItems v ≠ []
  | .obj fields, hg => by
      have hne : fields ≠ [] := by
        intro he; subst he; simp [goodVal] at hg
      simp only [goodVal, Bool.and_eq_true] at hg
      exact addrItemsF_ne_nil fields hne hg.2
  | .arr es, _ => by simp [addrItems]
  | .str b, _ => by simp [addrItems]
  | .num q, _ => by simp [addrItems]
  | .bool b, _ => by simp [addrItems]
  | .null, _ => by simp [addrItems]
termination_by v => sizeOf v

/-- `addrItems_ne_nil` over a nonempty good binding list. -/
theorem addrItemsF_ne_nil : ∀ (fields : List (List Nat × JSONValue)),
    fields ≠ [] → goodFields fields = true → addrItemsF fields ≠ []
  | [], hne, _ => (hne rfl).elim
  | (k, v) :: rest, _, hg => by
      simp only [goodFields, Bool.and_eq_true, Bool.not_eq_true',
        decide_eq_false_iff_not] at hg
      obtain ⟨⟨⟨⟨_, _⟩, _⟩, hgv⟩, _⟩ := hg
      have h1 : addrItems v ≠ [] := addrItems_ne_nil v hgv
      show (addrItems v).map (fun al => (k :: al.1, al.2)) ++ addrItemsF rest ≠ []
      simp [h1]
termination_by fields => sizeOf fields

end

mutual

/-- Every segment of every address of a good value is nonempty and
dot-free. -/
theorem addr_segs_good : ∀ (v : JSONValue), goodVal v = true →
    ∀ al ∈ addrItems v, ∀ a ∈ al.1, a ≠ [] ∧ 46 ∉ a
  | .obj fields, hg => by
      simp only [goodVal, Bool.and_eq_true] at hg
      exact addrF_segs_good fields hg.2
  | .arr es, _ => by intro al hal a ha; simp [addrItems] at hal; simp [hal] at ha
  | .str b, _ => by intro al hal a ha; simp [addrItems] at hal; simp [hal] at ha
  | .num q, _ => by intro al hal a ha; simp [addrItems] at hal; simp [hal] at ha
  | .bool b, _ => by intro al hal a ha; simp [addrItems] at hal; simp [hal] at ha
  | .null, _ => by intro al hal a ha; simp [addrItems] at hal; simp [hal] at ha
termination_by v => sizeOf v

/-- `addr_segs_good` over an object's bindings. -/
theorem addrF_segs_good : ∀ (fields : List (List Nat × JSONValue)),
    goodFields fields = true →
    ∀ al ∈ addrItemsF fields, ∀ a ∈ al.1, a ≠ [] ∧ 46 ∉ a
  | [], _ => by intro al hal; simp [addrItemsF] at hal
  | (k, v) :: rest, hg => by
      simp only [goodFields, Bool.and_eq_true, Bool.not_eq_true',
        decide_eq_false_iff_not] at hg
      obtain ⟨⟨⟨⟨hkne, hkdot⟩, _⟩, hgv⟩, hgr⟩ := hg
      intro al hal a ha
      rcases List.mem_append.mp hal with h1 | h2
      · obtain ⟨al', hal', rfl⟩ := List.mem_map.mp h1
        simp only at ha
        rcases List.mem_cons.mp ha with he | hm
        · rw [he]; exact ⟨hkne, hkdot⟩
        · exact addr_segs_good v hgv al' hal' a hm
      · exact addrF_segs_good rest hgr al h2 a ha
termination_by fields => sizeOf fields

end

mutual

/-- The addresses of a good value are pairwise distinct. -/
theorem addr_nodup : ∀ (v : JSONValue), goodVal v = true →
    ((addrItems v).map Prod.fst).Nodup
  | .obj fields, hg => by
      simp only [goodVal, Bool.and_eq_true] at hg
      exact addrF_nodup fields hg.2
  | .arr es, _ => by simp [addrItems]
  | .str b, _ => by simp [addrItems]
  | .num q, _ => by simp [addrItems]
  | .bool b, _ => by simp [addrItems]
  | .null, _ => by simp [addrItems]
termination_by v => sizeOf v

/-- `addr_nodup` over an object's bindings. -/
theorem addrF_nodup : ∀ (fields : List (List Nat × JSONValue)),
    goodFields fields = true → ((addrItemsF fields).map Prod.fst).Nodup
  | [], _ => by simp [addrItemsF]
  | (k, v) :: rest, hg => by
      simp only [goodFields, Bool.and_eq_true, Bool.not_eq_true',
        decide_eq_false_iff_not] at hg
      obtain ⟨⟨⟨⟨_, _⟩, hkmem⟩, hgv⟩, hgr⟩ := hg
      show (((addrItems v).map (fun al => (k :: al.1, al.2)) ++
        addrItemsF rest).map Prod.fst).Nodup
      rw [List.map_append, List.map_map]
      apply List.nodup_append.mpr
      refine ⟨?_, addrF_nodup rest hgr, ?_⟩
      · have h1 : ((addrItems v).map Prod.fst).Nodup := addr_nodup v hgv
        have h2 : (Prod.fst ∘ fun al : List (List Nat) × JSONValue =>
            ((k :: al.1, al.2) : List (List Nat) × JSONValue)) =
            (fun al => k :: al.1) := rfl
        rw [h2]
        have h3 : (fun al : List (List Nat) × JSONValue => k :: al.1) =
            ((k :: ·) ∘ Prod.fst) := rfl
        rw [h3, ← List.map_map]
        apply List.Nodup.map _ h1
        intro x y hxy
        injection hxy
      · intro x hx1 hx2
        obtain ⟨al', _, rfl⟩ := List.mem_map.mp hx1
        obtain ⟨al2, hal2, he2⟩ := List.mem_map.mp hx2
        obtain ⟨k', t', hh, hkm⟩ := addrF_head_keys rest al2 hal2
        have hck : k' :: t' = k :: al'.1 := hh ▸ he2
        have hk'k : k' = k := by injection hck
        exact hkmem (hk'k ▸ hkm)
termination_by fields => sizeOf fields

end

/-- Folding `setPath` over joined paths equals folding over the segment
addresses when splitting inverts joining on every item. -/
theorem foldl_setPath_join : ∀ (items : List (List (List Nat) × JSONValue))
    (acc : JSONValue),
    (∀ al ∈ items, splitOnDot (joinSegs al.1) = al.1) →
    List.foldl (fun a kv => setPath a (splitOnDot kv.1) kv.2) acc
      (items.map (fun al => (joinSegs al.1, al.2))) =
    List.foldl (fun a al => setPath a al.1 al.2) acc items := by
  intro items
  induction items with
  | nil => intro acc _; rfl
  | cons al items' ih =>
      intro acc hsp
      simp only [List.map_cons, List.foldl_cons]
      rw [hsp al (by simp)]
      exact ih _ (fun al' h => hsp al' (by simp [h]))

/-- One step of the `unflattenJSON` walk on an object node. -/
theorem setPath_cons (f : List (List Nat × JSONValue)) (k : List Nat)
    (segs : List (List Nat)) (val : JSONValue) :
    setPath (.obj f) (k :: segs) val =
      .obj (jinsert f k (setPath (childD f k) segs val)) := rfl

/-- The freshly inserted child is what the walk continues from. -/
theorem childD_jinsert_self (f : List (List Nat × JSONValue)) (k : List Nat)
    (v : JSONValue) : childD (jinsert f k v) k = v := by
  simp [childD, jlookup_jinsert_self]

/-- A missing key's child starts as the empty object. -/
theorem childD_not_mem (f : List (List Nat × JSONValue)) (k : List Nat)
    (h : k ∉ keysOf f) : childD f k = .obj [] := by
  simp [childD, jlookup_none_of_not_mem f k h]

/-- Folding a nonempty batch of addresses sharing head segment `k` builds
the whole batch under key `k` of the current object. -/
theorem foldl_setPath_cons_batch :
    ∀ (items : List (List (List Nat) × JSONValue)) (f : List (List Nat × JSONValue))
      (k : List Nat), items ≠ [] →
    List.foldl (fun a al => setPath a al.1 al.2) (.obj f)
      (items.map (fun al => (k :: al.1, al.2))) =
    .obj (jinsert f k
      (List.foldl (fun a al => setPath a al.1 al.2) (childD f k) items)) := by
  intro items
  induction items with
  | nil => intro f k h; cases h rfl
  | cons al items' ih =>
      intro f k _
      cases items' with
      | nil =>
          simp only [List.map_cons, List.map_nil, List.foldl_cons, List.foldl_nil]
          exact setPath_cons f k al.1 al.2
      | cons al2 items'' =>
          simp only [List.map_cons, List.foldl_cons]
          rw [setPath_cons f k al.1 al.2]
          have hne : al2 :: items'' ≠ [] := by simp
          have := ih (jinsert f k (setPath (childD f k) al.1 al.2)) k hne
          simp only [List.map_cons, List.foldl_cons] at this
          rw [this, childD_jinsert_self, jinsert_jinsert_same]

mutual

/-- Folding `setPath` over all leaf addresses of a good value, starting
from a fresh empty object, rebuilds the value exactly. -/
theorem rebuild_val : ∀ (v : JSONValue), goodVal v = true →
    List.foldl (fun a al => setPath a al.1 al.2) (.obj []) (addrItems v) = v
  | .obj fields, hg => by
      simp only [goodVal, Bool.and_eq_true] at hg
      have := rebuild_fields fields [] hg.2 (by simp [keysOf])
      simpa using this
  | .arr es, _ => rfl
  | .str b, _ => rfl
  | .num q, _ => rfl
  | .bool b, _ => rfl
  | .null, _ => rfl
termination_by v => sizeOf v

/-- `rebuild_val` over an object's bindings: the fold appends the rebuilt
bindings after the already-present fresh ones. -/
theorem rebuild_fields : ∀ (fields : List (List Nat × JSONValue))
    (g : List (List Nat × JSONValue)), goodFields fields = true →
    (∀ k' ∈ keysOf fields, k' ∉ keysOf g) →
    List.foldl (fun a al => setPath a al.1 al.2) (.obj g) (addrItemsF fields) =
      .obj (g ++ fields)
  | [], g, _, _ => by simp [addrItemsF]
  | (k, v) :: rest, g, hg, hfr => by
      simp only [goodFields, Bool.and_eq_true, Bool.not_eq_true',
        decide_eq_false_iff_not] at hg
      obtain ⟨⟨⟨⟨_, _⟩, hkmem⟩, hgv⟩, hgr⟩ := hg
      have hkg : k ∉ keysOf g := hfr k (by simp [keysOf])
      show List.foldl (fun a al => setPath a al.1 al.2) (.obj g)
        ((addrItems v).map (fun al => (k :: al.1, al.2)) ++ addrItemsF rest) =
        .obj (g ++ (k, v) :: rest)
      rw [List.foldl_append]
      rw [foldl_setPath_cons_batch (addrItems v) g k (addrItems_ne_nil v hgv)]
      rw [childD_not_mem g k hkg]
      rw [rebuild_val v hgv]
      rw [jinsert_not_mem g k v hkg]
      have hfr' : ∀ k' ∈ keysOf rest, k' ∉ keysOf (g ++ [(k, v)]) := by
        intro k' hk' hmem
        have hks : keysOf (g ++ [(k, v)]) = keysOf g ++ [k] := by simp [keysOf]
        rw [hks] at hmem
        rcases List.mem_append.mp hmem with h | h
        · exact hfr k' (by simp [keysOf] at hk' ⊢; exact Or.inr hk') h
        · simp at h
          exact hkmem (h ▸ hk')
      rw [rebuild_fields rest (g ++ [(k, v)]) hgr hfr']
      simp
termination_by fields => sizeOf fields

end

/-- With unique keys, every binding is found by lookup. -/
theorem jlookup_of_mem_uniq : ∀ (m : List (List Nat × JSONValue)),
    uniqFields m = true → ∀ kv ∈ m, jlookup m kv.1 = some kv.2 := by
  intro m
  induction m with
  | nil => intro _ kv h; simp at h
  | cons hd rest ih =>
      obtain ⟨k', v'⟩ := hd
      intro hu kv hm
      simp only [uniqFields, Bool.and_eq_true, Bool.not_eq_true',
        decide_eq_false_iff_not] at hu
      obtain ⟨⟨hk'mem, _⟩, hur⟩ := hu
      rcases List.mem_cons.mp hm with he | ht
      · subst he; simp [jlookup]
      · have hne : ¬(k' = kv.1) := by
          intro he
          exact hk'mem (he ▸ List.mem_map_of_mem Prod.fst ht)
        simp only [jlookup, hne, if_false]
        exact ih hur kv ht

/-- Every value bound in a `uniqFields` list is itself `uniqVal`. -/
theorem uniqVal_of_mem : ∀ (m : List (List Nat × JSONValue)),
    uniqFields m = true → ∀ kv ∈ m, uniqVal kv.2 = true := by
  intro m
  induction m with
  | nil => intro _ kv h; simp at h
  | cons hd rest ih =>
      obtain ⟨k', v'⟩ := hd
      intro hu kv hm
      simp only [uniqFields, Bool.and_eq_true] at hu
      rcases List.mem_cons.mp hm with he | ht
      · subst he; exact hu.1.2
      · exact ih hu.2 kv ht

/-- Every element of a `uniqElems` list is itself `uniqVal`. -/
theorem uniqVal_of_mem_elems : ∀ (es : List JSONValue),
    uniqElems es = true → ∀ v ∈ es, uniqVal v = true := by
  intro es
  induction es with
  | nil => intro _ v h; simp at h
  | cons w rest ih =>
      intro hu v hm
      simp only [uniqElems, Bool.and_eq_true] at hu
      rcases List.mem_cons.mp hm with he | ht
      · subst he; exact hu.1
      · exact ih hu.2 v ht

mutual

/-- `areEqual` is reflexive on values whose object nodes all have unique
keys (the `unordered_map` invariant). -/
theorem areEqual_refl : ∀ (v : JSONValue), uniqVal v = true →
    areEqual v v = true
  | .obj fields, hg => by
      show (decide (fields.length = fields.length) && fieldsSub fields fields) = true
      rw [fieldsSub_refl_aux fields fields
        (fun kv hm => ⟨jlookup_of_mem_uniq fields hg kv hm,
          uniqVal_of_mem fields hg kv hm⟩)]
      simp
  | .arr es, hg => by
      show (decide (es.length = es.length) && elemsEq es es) = true
      rw [elemsEq_refl_aux es (uniqVal_of_mem_elems es hg)]
      simp
  | .str b, _ => by simp [areEqual]
  | .num q, _ => by simp [areEqual]
  | .bool b, _ => by simp [areEqual]
  | .null, _ => by simp [areEqual]
termination_by v => sizeOf v

/-- The object loop of `areEqual` succeeds when every binding of the left
list is found with an equal value in the right one. -/
theorem fieldsSub_refl_aux : ∀ (fa fb : List (List Nat × JSONValue)),
    (∀ kv ∈ fa, jlookup fb kv.1 = some kv.2 ∧ uniqVal kv.2 = true) →
    fieldsSub fa fb = true
  | [], _, _ => rfl
  | (k, v) :: rest, fb, h => by
      have hh := h (k, v) (by simp)
      show ((match jlookup fb k with
             | some w => areEqual v w
             | none => false) && fieldsSub rest fb) = true
      rw [hh.1]
      show (areEqual v v && fieldsSub rest fb) = true
      rw [areEqual_refl v hh.2]
      rw [fieldsSub_refl_aux rest fb (fun kv hm => h kv (by simp [hm]))]
      rfl
termination_by fa => sizeOf fa

/-- The array loop of `areEqual` succeeds on identical lists of reflexive
elements. -/
theorem elemsEq_refl_aux : ∀ (es : List JSONValue),
    (∀ v ∈ es, uniqVal v = true) → elemsEq es es = true
  | [], _ => rfl
  | v :: rest, h => by
      show (areEqual v v && elemsEq rest (v :: rest).tail) = true
      rw [areEqual_refl v (h v (by simp))]
      rw [show (v :: rest).tail = rest from rfl]
      rw [elemsEq_refl_aux rest (fun w hm => h w (by simp [hm]))]
      rfl
termination_by es => sizeOf es

end

/-- C9 amended: for every object whose keys at every nesting level are
nonempty, dot-free and unique, and which has no empty-object value at any
nested position, `unflattenJSON (flattenJSON v)` rebuilds `v` exactly; it
is then also deep-equal (`areEqual`) to `v` whenever the object-key
uniqueness extends into array elements (the `unordered_map` invariant, on
which `areEqual` is reflexive). -/
theorem unflatten_flatten_roundtrip (fields : List (List Nat × JSONValue))
    (hg : goodFields fields = true) :
    unflattenJSON (flattenJSON (.obj fields) [] []) = .obj fields ∧
    (uniqFields fields = true →
      areEqual (unflattenJSON (flattenJSON (.obj fields) [] [])) (.obj fields) = true) := by
  have hmain : unflattenJSON (flattenJSON (.obj fields) [] []) = .obj fields := by
    cases fields with
    | nil => rfl
    | cons f0 fs =>
        have hgv : goodVal (.obj (f0 :: fs)) = true := by
          simp only [goodVal, Bool.and_eq_true]
          exact ⟨by simp, hg⟩
        have haddr_nodup := addrF_nodup (f0 :: fs) hg
        have hsegs := addrF_segs_good (f0 :: fs) hg
        have hsj : ∀ al ∈ addrItemsF (f0 :: fs),
            splitOnDot (joinSegs al.1) = al.1 := by
          intro al hal
          obtain ⟨k, t, hh, _⟩ := addrF_head_keys (f0 :: fs) al hal
          exact splitOnDot_joinSegs al.1 (by rw [hh]; simp) (hsegs al hal)
        have heq : flatItems [] (.obj (f0 :: fs)) =
            (addrItemsF (f0 :: fs)).map (fun al => (joinSegs al.1, al.2)) := by
          have h := flatItems_eq_addr (.obj (f0 :: fs)) [] (by simp) hgv
          simpa using h
        have hpn : ((flatItems [] (.obj (f0 :: fs))).map Prod.fst).Nodup := by
          rw [heq, List.map_map]
          have hcomp : (Prod.fst ∘ fun al : List (List Nat) × JSONValue =>
              ((joinSegs al.1, al.2) : List Nat × JSONValue)) =
              ((joinSegs ·) ∘ Prod.fst) := rfl
          rw [hcomp, ← List.map_map]
          refine List.Nodup.map_on ?_ haddr_nodup
          intro x hx y hy hxy
          obtain ⟨alx, halx, rfl⟩ := List.mem_map.mp hx
          obtain ⟨aly, haly, rfl⟩ := List.mem_map.mp hy
          calc alx.1 = splitOnDot (joinSegs alx.1) := (hsj alx halx).symm
            _ = splitOnDot (joinSegs aly.1) := by rw [hxy]
            _ = aly.1 := hsj aly haly
        have hfl : flattenJSON (.obj (f0 :: fs)) [] [] =
            flatItems [] (.obj (f0 :: fs)) := by
          have h := flatten_append (.obj (f0 :: fs)) [] [] hpn (by simp [keysOf])
          simpa using h
        rw [hfl, heq]
        show List.foldl (fun acc kv => setPath acc (splitOnDot kv.1) kv.2) (.obj [])
          ((addrItemsF (f0 :: fs)).map (fun al => (joinSegs al.1, al.2))) =
          .obj (f0 :: fs)
        rw [foldl_setPath_join _ _ hsj]
        have h := rebuild_fields (f0 :: fs) [] hg (by simp [keysOf])
        simpa using h
  refine ⟨hmain, fun hu => ?_⟩
  rw [hmain]
  exact areEqual_refl (.obj fields) hu

/-- Witness for C9's amended statement: the good object `{"a":{"b":1}}`
flattens to `{"a.b":1}` and unflattens back to itself. -/
theorem unflatten_flatten_roundtrip_witness :
    goodFields [([97], JSONValue.obj [([98], JSONValue.num ⟨1, 1⟩)])] = true ∧
    unflattenJSON (flattenJSON
      (.obj [([97], JSONValue.obj [([98], JSONValue.num ⟨1, 1⟩)])]) [] []) =
      .obj [([97], JSONValue.obj [([98], JSONValue.num ⟨1, 1⟩)])] :=
  ⟨rfl, (unflatten_flatten_roundtrip
    [([97], JSONValue.obj [([98], JSONValue.num ⟨1, 1⟩)])] rfl).1⟩

/-- C9 counterexample: `{"a":{}}` has dot-free keys, yet its flattened map
is empty (the empty nested object produces no leaf), so unflattening gives
`{}` which is not deep-equal to the original. -/
theorem unflatten_flatten_empty_object_cex :
    (46 ∉ ([97] : List Nat)) ∧
    areEqual
      (unflattenJSON (flattenJSON (.obj [([97], JSONValue.obj [])]) [] []))
      (.obj [([97], JSONValue.obj [])]) = false :=
  ⟨by decide, rfl⟩
